import Mathlib

/-!
Verification of the lazy ALTREP vector layer of the Arrow R bindings
(`r/src/altrep.cpp`).

A chunked array is modelled at value level: each chunk is the sequence of its
cells, where a cell is the pair of its validity-bitmap bit and the raw value
stored in the chunk's data buffer.  Buffers of machine integers become `List`
over `Int`/`Nat`; R's `SEXP` scalar results become an explicit inductive type;
R's NA sentinels are explicit values.  Routines of the Arrow C++ library that
this file's subject consumes as black boxes (`ChunkedArray::Slice`, the
`sum`/`min_max` compute kernels, `DictionaryUnifier`) are modelled from the
specification's description of them; everything else is translated from
`altrep.cpp` itself.
-/

namespace ArrowAltrep

/-- A cell of a chunk: the validity bit from the null bitmap (`true` means the
element is present) paired with the raw value stored in the data buffer. -/
abbrev Cell (α : Type) := Bool × α

/-- One immutable Arrow chunk, as the sequence of its cells. -/
abbrev Chunk (α : Type) := List (Cell α)

/-- `ChunkedArray::length()`: sum of the chunk lengths. -/
def chunkedLength (cs : List (Chunk α)) : Nat :=
  (cs.map List.length).sum

/-- Null count of a single chunk: number of unset validity bits. -/
def chunkNullCount (c : Chunk α) : Nat :=
  (c.filter (fun cell => !cell.1)).length

/-- `ChunkedArray::null_count()`: sum of the per-chunk null counts. -/
def nullCount (cs : List (Chunk α)) : Nat :=
  (cs.map chunkNullCount).sum

/-- `ArrayResolve`: walk the chunks in order, subtracting each chunk's length
from the global index `i` until `i` falls inside the current chunk; returns
the chunk ordinal (`position_`) together with the resolved cell.  `none`
models the out-of-range case, in which the C++ constructor leaves its fields
uninitialised. -/
def resolve : List (Chunk α) → Nat → Option (Nat × Cell α)
  | [], _ => none
  | c :: cs, i =>
    if i < c.length then (c.get? i).map (fun cell => (0, cell))
    else (resolve cs (i - c.length)).map (fun pc => (pc.1 + 1, pc.2))

/-- Element access through the position resolver: resolve the global index and
render the resolved cell with the (chunk-ordinal dependent) cell renderer `f`.
Instantiated per variant: `f` turns a cell into the value the variant's `Elt`
returns. -/
def eltVia (f : Nat → Cell α → β) (cs : List (Chunk α)) (i : Nat) : Option β :=
  (resolve cs i).map (fun pc => f pc.1 pc.2)

/-- The full materialized representation: concatenation, chunk by chunk, of
every cell rendered by `f` (the ordinal `p` of the first chunk is threaded so
`f` can select per-chunk auxiliary data such as a transpose buffer). -/
def flatOut (f : Nat → Cell α → β) : Nat → List (Chunk α) → List β
  | _, [] => []
  | p, c :: cs => c.map (f p) ++ flatOut f (p + 1) cs

/-- The region-copy scan shared by the `Get_region` implementations: skip whole
chunks while the start offset is at or past the current chunk (exactly the skip
loop of `ChunkedArray::Slice` and of `AltrepFactor::Get_region`'s ordinal
search), then render the requested window chunk by chunk.  The ordinal `p` is
threaded so that the factor variant reads the transpose buffer of the chunk
that covers each copied position. -/
def regionOut (f : Nat → Cell α → β) : Nat → List (Chunk α) → Nat → Nat → List β
  | _, [], _, _ => []
  | p, c :: cs, start, n =>
    if c.length ≤ start then regionOut f (p + 1) cs (start - c.length) n
    else ((c.drop start).take n).map (f p) ++ regionOut f (p + 1) cs 0 (n - (c.length - start))

/-! ### Primitive numeric variant (`AltrepVectorPrimitive<REALSXP|INTSXP>`) -/

/-- The cell renderer of the primitive variant: the raw buffer value for a
present element, the R NA sentinel for a null one (`AltrepVectorPrimitive::Elt`
body, also the overlay pass of its `Get_region`).  The ordinal is unused. -/
def primCell (na : α) : Nat → Cell α → α :=
  fun _ cell => if cell.1 then cell.2 else na

/-- The altrep object of a primitive variant: `data1` is the wrapped chunked
array (never reassigned), `data2` the materialized standard R vector, `none`
until the first materialization. -/
structure PrimState (α : Type) where
  source : List (Chunk α)
  materialized : Option (List α)

/-- `AltrepVectorPrimitive::Elt`: resolve the position and read through the
chunk (this method never consults `data2`).  `none` models the out-of-range
case, undefined in the C++. -/
def pElt (na : α) (cs : List (Chunk α)) (i : Nat) : Option α :=
  eltVia (primCell na) cs i

/-- `AltrepVectorPrimitive::Get_region`, returning the written buffer (the C++
returns its length as `ncopy`).  Materialized: the standard `GET_REGION` over
`data2`, which copies `min(n, length-start)` elements — modelled from the spec
(R runtime routine, not part of this repository).  Otherwise: `Slice(i, n)`
followed by per-chunk memcpy plus sentinel overlay; `Slice` is an Arrow kernel
modelled from the spec as the chunk-aligned window `[start, start+n)`. -/
def pGetRegion (na : α) (s : PrimState α) (start n : Nat) : List α :=
  match s.materialized with
  | some r => (r.drop start).take n
  | none => regionOut (primCell na) 0 s.source start n

/-- `AltrepVectorPrimitive::Materialize`: if `data2` is absent, allocate a
vector of `Length(alt)` elements, fill it through `Get_region(alt, 0, size)`
(the object is still unmaterialized at that point, so the copying branch runs),
and store it as `data2`; always returns `data2`. -/
def pMaterialize (na : α) (s : PrimState α) : List α × PrimState α :=
  match s.materialized with
  | some r => (r, s)
  | none =>
    let copy := regionOut (primCell na) 0 s.source 0 (chunkedLength s.source)
    (copy, { s with materialized := some copy })

/-- The three possible outcomes of a data-pointer request. -/
inductive Dataptr where
  /-- a pointer directly into the single source chunk's data buffer -/
  | chunkData : Dataptr
  /-- a pointer into the materialized `data2` vector -/
  | cacheData : Dataptr
  /-- `nullptr` -/
  | unavailable : Dataptr
deriving DecidableEq

/-- `AltrepVectorPrimitive::Dataptr_or_null`: the cache pointer if
materialized; else a zero-copy pointer into the chunk when there is exactly one
chunk and no nulls; else give up (never materializes). -/
def pDataptrOrNull (s : PrimState α) : Dataptr :=
  if s.materialized.isSome then .cacheData
  else if s.source.length = 1 ∧ nullCount s.source = 0 then .chunkData
  else .unavailable

/-- `AltrepVectorPrimitive::Dataptr`: zero-copy pointer when unmaterialized
with one chunk and no nulls; otherwise force materialization and hand out the
`data2` pointer (even when `writeable` — see the NOTE in the source). -/
def pDataptr (na : α) (s : PrimState α) (writeable : Bool) : Dataptr × PrimState α :=
  if s.materialized.isNone ∧ s.source.length = 1 ∧ nullCount s.source = 0 then
    (.chunkData, s)
  else
    (.cacheData, (pMaterialize na s).2)

/-- The sequence of present (non-null) raw values, in order — what the Arrow
aggregate kernels reduce over when nulls are skipped. -/
def validValues : List (Chunk α) → List α
  | [] => []
  | c :: cs => (c.filter (fun cell => cell.1)).map Prod.snd ++ validValues cs

/-- An R scalar `SEXP` result of an aggregate method. -/
inductive RSexp where
  | intScalar (value : Int)
  | realScalar (value : ℚ)
  | naInteger
  | naReal
  | posInfScalar
  | negInfScalar
deriving DecidableEq

/-- Modelled from the spec: the Arrow `min_max` aggregate kernel (a black-box
compute kernel of the Arrow library, not part of `src/`): the least/greatest
present value.  `none` for an empty reduction — the altrep methods only invoke
the kernel when at least one present value exists. -/
def kernelMinMax [LinearOrder α] (isMin : Bool) : List α → Option α
  | [] => none
  | v :: vs => some (vs.foldl (fun a b => if isMin then min a b else max a b) v)

/-- `AltrepVectorPrimitive<INTSXP>::MinMax` (`Min` is `isMin = true`):
all-null under `na.rm` (or empty) gives `±Inf`; an unskipped null gives the NA
sentinel; otherwise delegate to the `min_max` kernel over the source. -/
def minMaxInt (isMin : Bool) (cs : List (Chunk Int)) (narm : Bool) : RSexp :=
  if (narm = true ∨ chunkedLength cs = 0) ∧ nullCount cs = chunkedLength cs then
    if isMin then .posInfScalar else .negInfScalar
  else if ¬narm = true ∧ 0 < nullCount cs then .naInteger
  else
    match kernelMinMax isMin (validValues cs) with
    | some v => .intScalar v
    | none => .naInteger

/-- `AltrepVectorPrimitive<REALSXP>::MinMax`: same policy, `double` element
type (doubles are modelled as exact rationals). -/
def minMaxReal (isMin : Bool) (cs : List (Chunk ℚ)) (narm : Bool) : RSexp :=
  if (narm = true ∨ chunkedLength cs = 0) ∧ nullCount cs = chunkedLength cs then
    if isMin then .posInfScalar else .negInfScalar
  else if ¬narm = true ∧ 0 < nullCount cs then .naReal
  else
    match kernelMinMax isMin (validValues cs) with
    | some v => .realScalar v
    | none => .naReal

/-- `AltrepVectorPrimitive<INTSXP>::Sum`: an unskipped null gives the NA
sentinel; otherwise the `sum` kernel (modelled from the spec: exact sum of the
present values in a wider `Int64` accumulator, `min_count = 0`) yields an
`Int64` scalar, returned as an R integer unless `value <= INT32_MIN` or
`value > INT32_MAX`, in which case it is returned as an R double. -/
def sumInt (cs : List (Chunk Int)) (narm : Bool) : RSexp :=
  if ¬narm = true ∧ 0 < nullCount cs then .naInteger
  else
    let value : Int := (validValues cs).sum
    if value ≤ -2147483648 ∨ 2147483647 < value then .realScalar (value : ℚ)
    else .intScalar value

/-- `AltrepVectorPrimitive<REALSXP>::Sum`: an unskipped null gives the NA
sentinel; otherwise the kernel's `DoubleScalar` sum of the present values. -/
def sumReal (cs : List (Chunk ℚ)) (narm : Bool) : RSexp :=
  if ¬narm = true ∧ 0 < nullCount cs then .naReal
  else .realScalar (validValues cs).sum

/-- The aggregate methods only read `data1` (the chunked array); the altrep
state is passed through untouched (they never force materialization). -/
def minMaxIntState (isMin : Bool) (s : PrimState Int) (narm : Bool) :
    RSexp × PrimState Int :=
  (minMaxInt isMin s.source narm, s)

/-- State-passing form of `sumInt`; the state is never touched. -/
def sumIntState (s : PrimState Int) (narm : Bool) : RSexp × PrimState Int :=
  (sumInt s.source narm, s)

/-- State-passing form of `minMaxReal`; the state is never touched. -/
def minMaxRealState (isMin : Bool) (s : PrimState ℚ) (narm : Bool) :
    RSexp × PrimState ℚ :=
  (minMaxReal isMin s.source narm, s)

/-- State-passing form of `sumReal`; the state is never touched. -/
def sumRealState (s : PrimState ℚ) (narm : Bool) : RSexp × PrimState ℚ :=
  (sumReal s.source narm, s)

/-! ### Dictionary (factor) variant (`AltrepFactor`) -/

/-- `NA_INTEGER`, R's sentinel for a missing integer (`INT32_MIN`). -/
def naInt : Int := -2147483648

/-- A dictionary-encoded chunk as seen at construction time: its index cells
(validity bit plus chunk-local dictionary index; the narrow signed/unsigned
storage widths of the C++ all carry the same index value) together with the
chunk's dictionary of string labels. -/
structure DictChunk where
  cells : Chunk Nat
  dict : List String

/-- `DictionaryChunkArrayNeedUnification` (defined in the R package outside
`src/`, modelled from the spec): unification is needed exactly when some
chunk's dictionary differs from chunk 0's. -/
def needUnification (cs : List DictChunk) : Bool :=
  match cs with
  | [] => false
  | c0 :: rest => rest.any (fun c => c.dict != c0.dict)

/-- Modelled from the spec: one `DictionaryUnifier::Unify` step (Arrow library
black box).  Walk the chunk's dictionary; a label already present in the
unified dictionary is transposed to its existing index, a new label is appended
and transposed to the fresh index.  Returns the grown unified dictionary and
the chunk's transpose buffer. -/
def unifyOne (u : List String) : List String → List String × List Nat
  | [] => (u, [])
  | s :: d =>
    if s ∈ u then
      ((unifyOne u d).1, u.indexOf s :: (unifyOne u d).2)
    else
      ((unifyOne (u ++ [s]) d).1, u.length :: (unifyOne (u ++ [s]) d).2)

/-- Modelled from the spec: `DictionaryUnifier` run over every chunk's
dictionary in order (the `Unify` loop of `AltrepFactor::Make`), returning the
final unified dictionary (`GetResult`) and the per-chunk transpose buffers. -/
def unifyAll (u : List String) : List (List String) → List String × List (List Nat)
  | [] => (u, [])
  | d :: ds =>
    ((unifyAll (unifyOne u d).1 ds).1,
      (unifyOne u d).2 :: (unifyAll (unifyOne u d).1 ds).2)

/-- The altrep object of the factor variant: `data1` holds the index cells of
the source chunks, `CADR(data2)` the transpose buffers (present only when
unification ran), the `levels` attribute the exposed label set, and
`CAR(data2)` the materialized integer vector. -/
structure FactorState where
  source : List (Chunk Nat)
  tables : Option (List (List Nat))
  levels : List String
  materialized : Option (List Int)

/-- `AltrepFactor::Make` (for string dictionaries): unify once at construction
when the chunk dictionaries differ, storing the transpose buffers and the
unified dictionary; otherwise use chunk 0's dictionary with no transpose
buffers.  The representation starts empty. -/
def factorMake (cs : List DictChunk) : FactorState :=
  if needUnification cs then
    { source := cs.map DictChunk.cells,
      tables := some (unifyAll [] (cs.map DictChunk.dict)).2,
      levels := (unifyAll [] (cs.map DictChunk.dict)).1,
      materialized := none }
  else
    { source := cs.map DictChunk.cells, tables := none,
      levels := ((cs.head?).map DictChunk.dict).getD [], materialized := none }

/-- Read of the chunk-ordinal `p`'s transpose buffer at a local index, identity
when no unification ran (`WasUnified` false).  A read past a buffer is a raw
out-of-bounds memory access in the C++; modelled as 0. -/
def transposeApply (tables : Option (List (List Nat))) (p idx : Nat) : Nat :=
  match tables with
  | some ts => (ts.getD p []).getD idx 0
  | none => idx

/-- The cell renderer of the factor variant (`AltrepFactor::Elt` body for one
resolved cell, also the `valid_func`/`null_func` pair of `GetRegionTranspose`):
transpose the stored index through chunk `p`'s buffer when unification ran,
add one (R factor codes are 1-based); nulls give `NA_INTEGER`. -/
def factorCell (tables : Option (List (List Nat))) : Nat → Cell Nat → Int :=
  fun p cell => if cell.1 then ((transposeApply tables p cell.2 + 1 : Nat) : Int) else naInt

/-- `AltrepFactor::Elt`: read `data2` when materialized, else resolve the
position and render through the transpose buffers. -/
def fElt (s : FactorState) (i : Nat) : Option Int :=
  match s.materialized with
  | some r => r.get? i
  | none => eltVia (factorCell s.tables) s.source i

/-- `AltrepFactor::Get_region`: materialized path through standard `GET_REGION`
over `data2`; `0` elements when `start` is at or past the end; otherwise the
slice walk, with the transpose buffer selected by the ordinal of the chunk
covering each copied position (the ordinal search loop plus the per-chunk
`GetRegionDispatch` calls). -/
def fGetRegion (s : FactorState) (start n : Nat) : List Int :=
  match s.materialized with
  | some r => (r.drop start).take n
  | none =>
    if chunkedLength s.source ≤ start then []
    else regionOut (factorCell s.tables) 0 s.source start n

/-- `AltrepFactor::Materialize`: fill an integer vector of `Length(alt)`
elements through `Get_region(alt, 0, size)` and store it as the
representation; always returns the representation. -/
def fMaterialize (s : FactorState) : List Int × FactorState :=
  match s.materialized with
  | some r => (r, s)
  | none =>
    let copy := fGetRegion s 0 (chunkedLength s.source)
    (copy, { s with materialized := some copy })

/-- The underlying string value at global position `i` of a dictionary-encoded
chunked array: the owning chunk's dictionary label at the stored index
(`none` for a null element or an out-of-range dictionary index). -/
def dictValueAt (cs : List DictChunk) (i : Nat) : Option String :=
  (resolve (cs.map DictChunk.cells) i).bind
    (fun pc =>
      if pc.2.1 then (cs.get? pc.1).bind (fun c => c.dict.get? pc.2.2) else none)

/-! ### String variant (`AltrepVectorString`) -/

/-- The nul byte. -/
def nulChar : Char := Char.ofNat 0

/-- ASCII apostrophe, used by `RStringViewer::Error` to delimit the offending
string in its message. -/
def quoteChar : Char := Char.ofNat 39

/-- An R `CHARSXP`: `NA_STRING` or a sequence of characters. -/
abbrev RStr := Option (List Char)

/-- `RStringViewer::ConvertStripNul`: the string with every embedded nul byte
removed (the C++ copies the view once and compacts it in place; the resulting
character sequence is the nul-free subsequence, in order). -/
def stripNuls : List Char → List Char
  | [] => []
  | c :: rest => if c = nulChar then stripNuls rest else c :: stripNuls rest

/-- The escaping used by `RStringViewer::Error`: a nul byte is displayed as a
backslash followed by a zero, every other character verbatim. -/
def escapeNul (c : Char) : List Char :=
  if c = nulChar then ['\\', '0'] else [c]

/-- The message built by `RStringViewer::Error`: the offending string with
nuls escaped, wrapped in apostrophes, between a fixed prefix and a fixed
suffix naming the `arrow.skip_nul` option. -/
def nulErrorMessage (v : List Char) : List Char :=
  ("embedded nul in string: ").toList ++ [quoteChar]
    ++ v.flatMap escapeNul ++ [quoteChar]
    ++ ("; to strip nuls when converting from Arrow to R, set options(arrow.skip_nul = TRUE)").toList

/-- `RStringViewer::Convert` for one cell, threading the viewer's
`nul_was_stripped_` flag: a null element is `NA_STRING`; a nul-free string
converts verbatim; with `arrow.skip_nul` set the nuls are stripped and the
flag is raised; otherwise the conversion raises the `Error` message. -/
def convert1 (strip flag : Bool) (cell : Cell (List Char)) :
    Except (List Char) (RStr × Bool) :=
  if cell.1 = false then .ok (none, flag)
  else if nulChar ∈ cell.2 then
    if strip then .ok (some (stripNuls cell.2), true)
    else .error (nulErrorMessage cell.2)
  else .ok (some cell.2, flag)

/-- The value component of a successful `RStringViewer::Convert` (it does not
depend on the incoming viewer flag): `NA_STRING` for a null, the nul-stripped
string when a nul is present (conversion then succeeded only under
`arrow.skip_nul`), the verbatim string otherwise. -/
def convValue (strip : Bool) (cell : Cell (List Char)) : RStr :=
  if cell.1 = false then none
  else if nulChar ∈ cell.2 then
    if strip then some (stripNuls cell.2) else none
  else some cell.2

/-- The inner conversion loop of `AltrepVectorString::Materialize` over one
chunk: convert each cell in order, stopping at the first failure. -/
def convertChunk (strip : Bool) : Bool → Chunk (List Char) →
    Except (List Char) (List RStr × Bool)
  | flag, [] => .ok ([], flag)
  | flag, cell :: rest =>
    match convert1 strip flag cell with
    | .error e => .error e
    | .ok vf =>
      match convertChunk strip vf.2 rest with
      | .error e => .error e
      | .ok vsf => .ok (vf.1 :: vsf.1, vsf.2)

/-- The full-vector conversion pass of `AltrepVectorString::Materialize`:
chunk by chunk, element by element, one shared viewer flag. -/
def convertAll (strip : Bool) : Bool → List (Chunk (List Char)) →
    Except (List Char) (List RStr × Bool)
  | flag, [] => .ok ([], flag)
  | flag, c :: cs =>
    match convertChunk strip flag c with
    | .error e => .error e
    | .ok vf =>
      match convertAll strip vf.2 cs with
      | .error e => .error e
      | .ok vsf => .ok (vf.1 ++ vsf.1, vsf.2)

/-- The altrep object of a string variant. -/
structure StrState where
  source : List (Chunk (List Char))
  materialized : Option (List RStr)

/-- `AltrepVectorString::Materialize`: return the representation if present;
otherwise run the full conversion pass and set the representation only if
every value converted (a conversion error unwinds past `SetRepresentation`).
Second component: the number of `Stripping nul` warnings the call emits (one
after the pass iff the viewer flag was raised). -/
def strMaterialize (strip : Bool) (s : StrState) :
    Except (List Char) (List RStr) × Nat × StrState :=
  match s.materialized with
  | some r => (.ok r, 0, s)
  | none =>
    match convertAll strip false s.source with
    | .error e => (.error e, 0, s)
    | .ok vf => (.ok vf.1, if vf.2 then 1 else 0, { s with materialized := some vf.1 })

/-- `AltrepVectorString::Elt`: read `data2` when materialized; otherwise
resolve the position and convert that single element with a fresh viewer,
warning iff it stripped.  No branch writes to the state.  (Out-of-range
unmaterialized access is undefined in the C++; modelled as `NA_STRING`.) -/
def strElt (strip : Bool) (s : StrState) (i : Nat) :
    Except (List Char) RStr × Nat × StrState :=
  match s.materialized with
  | some r => (.ok ((r.get? i).getD none), 0, s)
  | none =>
    match resolve s.source i with
    | none => (.ok none, 0, s)
    | some pc =>
      match convert1 strip false pc.2 with
      | .error e => (.error e, 0, s)
      | .ok vf => (.ok vf.1, if vf.2 then 1 else 0, s)

/-! ### Dispatch (`MakeAltrepVector`) -/

/-- The element types `MakeAltrepVector` dispatches on; `dict` records whether
the dictionary value type is string (checked by `AltrepFactor::Make`). -/
inductive ArrowType where
  | float64 : ArrowType
  | int32 : ArrowType
  | utf8 : ArrowType
  | largeUtf8 : ArrowType
  | dict (valueIsString : Bool) : ArrowType
  | other : ArrowType
deriving DecidableEq

/-- What `MakeAltrepVector` hands back: an altrep class, or `R_NilValue`
(decline — the caller materializes eagerly). -/
inductive AltrepChoice where
  | realVector : AltrepChoice
  | intVector : AltrepChoice
  | stringVector : AltrepChoice
  | largeStringVector : AltrepChoice
  | factorVector : AltrepChoice
  | nilValue : AltrepChoice
deriving DecidableEq

/-- `MakeAltrepVector`: produce an altrep vector only when the
`arrow.use_altrep` option allows it and the chunked array has at least one
element, dispatching on the element type; `AltrepFactor::Make` itself declines
dictionaries whose value type is not string. -/
def makeAltrepVector (useAltrepOption : Bool) (len : Nat) (ty : ArrowType) :
    AltrepChoice :=
  if useAltrepOption = true ∧ 0 < len then
    match ty with
    | .float64 => .realVector
    | .int32 => .intVector
    | .utf8 => .stringVector
    | .largeUtf8 => .largeStringVector
    | .dict valueIsString => if valueIsString then .factorVector else .nilValue
    | .other => .nilValue
  else .nilValue

/-! ### Helper lemmas -/

theorem length_flatOut (f : Nat → Cell α → β) (p : Nat) (cs : List (Chunk α)) :
    (flatOut f p cs).length = chunkedLength cs := by
  induction cs generalizing p with
  | nil => rfl
  | cons c cs ih =>
    have h := ih (p + 1)
    simp only [flatOut, List.length_append, List.length_map, h, chunkedLength,
      List.map_cons, List.sum_cons]

theorem get?_flatOut (f : Nat → Cell α → β) (p : Nat) (cs : List (Chunk α)) (i : Nat) :
    (flatOut f p cs).get? i = (resolve cs i).map (fun pc => f (p + pc.1) pc.2) := by
  induction cs generalizing p i with
  | nil => simp [flatOut, resolve]
  | cons c cs ih =>
    by_cases h : i < c.length
    · rw [flatOut, resolve, if_pos h, List.get?_append (by simpa using h), List.get?_map]
      cases hc : c.get? i with
      | none => rfl
      | some cell => rfl
    · rw [flatOut, resolve, if_neg h,
        List.get?_append_right (by simpa using Nat.le_of_not_lt h)]
      simp only [List.length_map]
      rw [ih]
      cases resolve cs (i - c.length) with
      | none => simp
      | some pc =>
        simp only [Option.map_some']
        have harith : p + 1 + pc.1 = p + (pc.1 + 1) := by omega
        rw [harith]

theorem get?_flatOut_zero (f : Nat → Cell α → β) (cs : List (Chunk α)) (i : Nat) :
    (flatOut f 0 cs).get? i = eltVia f cs i := by
  rw [get?_flatOut, eltVia]
  cases resolve cs i with
  | none => rfl
  | some pc =>
    simp only [Option.map_some', Nat.zero_add]

theorem regionOut_eq (f : Nat → Cell α → β) (p : Nat) (cs : List (Chunk α))
    (start n : Nat) :
    regionOut f p cs start n = ((flatOut f p cs).drop start).take n := by
  induction cs generalizing p start n with
  | nil => simp [regionOut, flatOut]
  | cons c cs ih =>
    by_cases h : c.length ≤ start
    · rw [regionOut, if_pos h, ih, flatOut]
      have hs : start = (List.map (f p) c).length + (start - c.length) := by
        simp only [List.length_map] ; omega
      conv_rhs => rw [hs, List.drop_append]
    · rw [regionOut, if_neg h, flatOut,
        List.drop_append_of_le_length (by simpa using Nat.le_of_not_lt (by omega)),
        List.take_append_eq_append_take, ih]
      simp [List.map_take, List.map_drop, Nat.sub_sub]

theorem length_regionOut (f : Nat → Cell α → β) (cs : List (Chunk α)) (start n : Nat) :
    (regionOut f 0 cs start n).length = min n (chunkedLength cs - start) := by
  rw [regionOut_eq, List.length_take, List.length_drop, length_flatOut]

theorem get?_regionOut (f : Nat → Cell α → β) (cs : List (Chunk α)) (start n k : Nat)
    (hk : k < n) :
    (regionOut f 0 cs start n).get? k = eltVia f cs (start + k) := by
  rw [regionOut_eq, List.get?_take hk, List.get?_drop, get?_flatOut_zero]

theorem regionOut_full (f : Nat → Cell α → β) (cs : List (Chunk α)) :
    regionOut f 0 cs 0 (chunkedLength cs) = flatOut f 0 cs := by
  rw [regionOut_eq, List.drop_zero]
  exact List.take_of_length_le (by rw [length_flatOut])

theorem getD_of_get? (l : List γ) (n : Nat) (d x : γ) (h : l.get? n = some x) :
    l.getD n d = x := by
  simp [List.getD, ← List.get?_eq_getElem?, h]

theorem chunkNullCount_le (c : Chunk α) : chunkNullCount c ≤ c.length :=
  List.length_filter_le _ c

theorem nullCount_le (cs : List (Chunk α)) : nullCount cs ≤ chunkedLength cs := by
  induction cs with
  | nil => exact Nat.le_refl 0
  | cons c cs ih =>
    have h := chunkNullCount_le c
    simp only [nullCount, chunkedLength, List.map_cons, List.sum_cons] at *
    omega

theorem chunk_all_null_filter (c : Chunk α) (h : chunkNullCount c = c.length) :
    c.filter (fun cell => cell.1) = [] := by
  induction c with
  | nil => rfl
  | cons cell rest ih =>
    cases hb : cell.1 with
    | true =>
      exfalso
      have hle := chunkNullCount_le rest
      simp [chunkNullCount, List.filter_cons, hb] at h hle
      omega
    | false =>
      have hrest : chunkNullCount rest = rest.length := by
        simp [chunkNullCount, List.filter_cons, hb] at h
        simpa [chunkNullCount] using h
      simp [List.filter_cons, hb, ih hrest]

theorem validValues_all_null (cs : List (Chunk α)) (h : nullCount cs = chunkedLength cs) :
    validValues cs = [] := by
  induction cs with
  | nil => rfl
  | cons c cs ih =>
    have h1 := chunkNullCount_le c
    have h2 := nullCount_le cs
    simp only [nullCount, chunkedLength, List.map_cons, List.sum_cons] at h h2
    have hc : chunkNullCount c = c.length := by omega
    have hcs : nullCount cs = chunkedLength cs := by
      simp only [nullCount, chunkedLength]
      omega
    simp [validValues, chunk_all_null_filter c hc, ih hcs]

theorem resolve_isSome (cs : List (Chunk α)) (i : Nat) (h : i < chunkedLength cs) :
    ∃ pc, resolve cs i = some pc := by
  have h1 : i < (flatOut (fun p cell => (p, cell)) 0 cs).length := by
    rw [length_flatOut] ; exact h
  have h2 := get?_flatOut_zero (fun p cell => (p, cell)) cs i
  rw [List.get?_eq_get h1] at h2
  unfold eltVia at h2
  cases hr : resolve cs i with
  | none => rw [hr] at h2 ; exact absurd h2 (by simp)
  | some pc => exact ⟨pc, rfl⟩

theorem resolve_ordinal (cs : List (Chunk α)) (i p : Nat) (cell : Cell α)
    (h : resolve cs i = some (p, cell)) :
    ∃ c, cs.get? p = some c ∧ cell ∈ c := by
  induction cs generalizing i p cell with
  | nil => simp [resolve] at h
  | cons c cs ih =>
    rw [resolve] at h
    by_cases hi : i < c.length
    · rw [if_pos hi] at h
      cases hc : c.get? i with
      | none => rw [hc] at h ; exact absurd h (by simp)
      | some cell0 =>
        rw [hc] at h
        simp only [Option.map_some'] at h
        injection h with h'
        injection h' with hp hcell
        refine ⟨c, ?_, ?_⟩
        · rw [← hp] ; rfl
        · rw [← hcell] ; exact List.get?_mem hc
    · rw [if_neg hi] at h
      cases hr : resolve cs (i - c.length) with
      | none => rw [hr] at h ; exact absurd h (by simp)
      | some pc =>
        rw [hr] at h
        simp only [Option.map_some'] at h
        injection h with h'
        injection h' with hp hcell
        obtain ⟨c0, hc0, hmem⟩ := ih (i - c.length) pc.1 pc.2 (by rw [hr])
        refine ⟨c0, ?_, by rw [← hcell] ; exact hmem⟩
        rw [← hp]
        simpa using hc0

/-! ### Claim theorems -/

/-- **C10**: the dispatch function produces a lazy vector only for chunked
arrays with at least one element: for length zero it returns the
eager-fallback value `R_NilValue`, for every element type and even when the
`arrow.use_altrep` option is enabled. -/
theorem claim_C10 (useAltrepOption : Bool) (ty : ArrowType) :
    makeAltrepVector useAltrepOption 0 ty = .nilValue := by
  simp [makeAltrepVector]

/-- **C7**: `Dataptr_or_null` of the primitive variant returns the zero-copy
pointer into the source chunk's buffer iff the vector is unmaterialized with
exactly one chunk and zero nulls; when materialized it returns the cached
buffer's pointer; in every other configuration it returns null — and it is a
pure read, never materializing. -/
theorem claim_C7 :
    (∀ (α : Type) (s : PrimState α),
        pDataptrOrNull s = .chunkData ↔
          s.materialized = none ∧ s.source.length = 1 ∧ nullCount s.source = 0)
    ∧ (∀ (α : Type) (s : PrimState α) (r : List α),
        s.materialized = some r → pDataptrOrNull s = .cacheData)
    ∧ (∀ (α : Type) (s : PrimState α),
        s.materialized = none → ¬(s.source.length = 1 ∧ nullCount s.source = 0) →
        pDataptrOrNull s = .unavailable) := by
  refine ⟨?_, ?_, ?_⟩
  · intro α s
    cases h : s.materialized with
    | some r => simp [pDataptrOrNull, h]
    | none =>
      by_cases hc : s.source.length = 1 ∧ nullCount s.source = 0
      · simp [pDataptrOrNull, h, hc]
      · simp [pDataptrOrNull, h, hc]
  · intro α s r h
    simp [pDataptrOrNull, h]
  · intro α s h hc
    simp [pDataptrOrNull, h, hc]

/-- Witness for C7 at a concrete state: one chunk, no nulls, unmaterialized
gives the zero-copy chunk pointer. -/
theorem claim_C7_witness :
    pDataptrOrNull ⟨[[((true : Bool), (5 : Int))]], none⟩ = .chunkData :=
  (claim_C7.1 Int ⟨[[((true : Bool), (5 : Int))]], none⟩).mpr (by decide)

/-- **C2**: materialization is idempotent and single-assignment for every
variant: a first call populates the cache, a second call returns the identical
cached object with no recomputation, a call on an already-materialized vector
returns the cache unchanged, and no state-modifying operation (including
`Dataptr`) ever clears or replaces a populated cache. -/
theorem claim_C2 :
    (∀ (α : Type) (na : α) (s : PrimState α),
        pMaterialize na (pMaterialize na s).2 = pMaterialize na s)
    ∧ (∀ (α : Type) (na : α) (s : PrimState α) (r : List α),
        s.materialized = some r → pMaterialize na s = (r, s))
    ∧ (∀ (α : Type) (na : α) (s : PrimState α) (w : Bool) (r : List α),
        s.materialized = some r → ((pDataptr na s w).2).materialized = some r)
    ∧ (∀ s : FactorState, fMaterialize (fMaterialize s).2 = fMaterialize s)
    ∧ (∀ (s : FactorState) (r : List Int),
        s.materialized = some r → fMaterialize s = (r, s))
    ∧ (∀ (strip : Bool) (s : StrState) (r : List RStr),
        s.materialized = some r → strMaterialize strip s = (.ok r, 0, s))
    ∧ (∀ (strip : Bool) (s : StrState) (v : List RStr) (w : Nat) (s' : StrState),
        strMaterialize strip s = (.ok v, w, s') →
          strMaterialize strip s' = (.ok v, 0, s')) := by
  refine ⟨?_, ?_, ?_, ?_, ?_, ?_, ?_⟩
  · intro α na s
    cases h : s.materialized with
    | some r => simp [pMaterialize, h]
    | none => simp [pMaterialize, h]
  · intro α na s r h
    simp [pMaterialize, h]
  · intro α na s w r h
    simp [pDataptr, h, pMaterialize]
  · intro s
    cases h : s.materialized with
    | some r => simp [fMaterialize, h]
    | none => simp [fMaterialize, h]
  · intro s r h
    simp [fMaterialize, h]
  · intro strip s r h
    simp [strMaterialize, h]
  · intro strip s v w s' h
    cases hm : s.materialized with
    | some r =>
      rw [strMaterialize, hm] at h
      injection h with h1 h2
      injection h2 with h2 h3
      injection h1 with h1
      rw [← h3, strMaterialize, hm, h1]
    | none =>
      rw [strMaterialize, hm] at h
      cases hc : convertAll strip false s.source with
      | error e => rw [hc] at h ; exact absurd h (by simp)
      | ok vf =>
        rw [hc] at h
        injection h with h1 h2
        injection h2 with h2 h3
        injection h1 with h1
        rw [← h3, strMaterialize]
        simp [← h1]

/-- Witness for C2: a second materialization of a two-chunk integer vector
returns exactly the state and value of the first. -/
theorem claim_C2_witness :
    pMaterialize (-2147483648)
        (pMaterialize (-2147483648)
          (⟨[[((true : Bool), (1 : Int))], [(false, 7)]], none⟩ : PrimState Int)).2
      = pMaterialize (-2147483648)
          (⟨[[((true : Bool), (1 : Int))], [(false, 7)]], none⟩ : PrimState Int) :=
  claim_C2.1 Int (-2147483648) ⟨[[((true : Bool), (1 : Int))], [(false, 7)]], none⟩

/-- **C4**: aggregate policy of the numeric variant, for both element types:
an unskipped null yields the native NA sentinel for `Min`/`Max`/`Sum`; an
all-null (or empty) reduction under `na.rm` yields `+Inf` for `Min`, `-Inf`
for `Max`, and integer `0` for `Sum`; and none of these methods touches the
altrep state (no materialization is forced). -/
theorem claim_C4 :
    (∀ (isMin : Bool) (cs : List (Chunk Int)), 0 < nullCount cs →
        minMaxInt isMin cs false = .naInteger)
    ∧ (∀ (isMin : Bool) (cs : List (Chunk ℚ)), 0 < nullCount cs →
        minMaxReal isMin cs false = .naReal)
    ∧ (∀ (cs : List (Chunk Int)) (narm : Bool),
        (narm = true ∨ chunkedLength cs = 0) → nullCount cs = chunkedLength cs →
        minMaxInt true cs narm = .posInfScalar ∧ minMaxInt false cs narm = .negInfScalar)
    ∧ (∀ (cs : List (Chunk ℚ)) (narm : Bool),
        (narm = true ∨ chunkedLength cs = 0) → nullCount cs = chunkedLength cs →
        minMaxReal true cs narm = .posInfScalar ∧ minMaxReal false cs narm = .negInfScalar)
    ∧ (∀ (cs : List (Chunk Int)), 0 < nullCount cs → sumInt cs false = .naInteger)
    ∧ (∀ (cs : List (Chunk ℚ)), 0 < nullCount cs → sumReal cs false = .naReal)
    ∧ (∀ (cs : List (Chunk Int)), nullCount cs = chunkedLength cs →
        sumInt cs true = .intScalar 0)
    ∧ (∀ (cs : List (Chunk ℚ)), nullCount cs = chunkedLength cs →
        sumReal cs true = .realScalar 0)
    ∧ (∀ (isMin narm : Bool) (s : PrimState Int),
        minMaxIntState isMin s narm = (minMaxInt isMin s.source narm, s))
    ∧ (∀ (narm : Bool) (s : PrimState Int),
        sumIntState s narm = (sumInt s.source narm, s))
    ∧ (∀ (isMin narm : Bool) (s : PrimState ℚ),
        minMaxRealState isMin s narm = (minMaxReal isMin s.source narm, s))
    ∧ (∀ (narm : Bool) (s : PrimState ℚ),
        sumRealState s narm = (sumReal s.source narm, s)) := by
  have hint : ∀ (isMin : Bool) (cs : List (Chunk Int)), 0 < nullCount cs →
      minMaxInt isMin cs false = .naInteger := by
    intro isMin cs h
    have hcond : ¬(((false : Bool) = true ∨ chunkedLength cs = 0)
        ∧ nullCount cs = chunkedLength cs) := by
      rintro ⟨h1 | h1, h2⟩
      · exact absurd h1 (by simp)
      · omega
    rw [minMaxInt, if_neg hcond, if_pos ⟨by simp, h⟩]
  have hreal : ∀ (isMin : Bool) (cs : List (Chunk ℚ)), 0 < nullCount cs →
      minMaxReal isMin cs false = .naReal := by
    intro isMin cs h
    have hcond : ¬(((false : Bool) = true ∨ chunkedLength cs = 0)
        ∧ nullCount cs = chunkedLength cs) := by
      rintro ⟨h1 | h1, h2⟩
      · exact absurd h1 (by simp)
      · omega
    rw [minMaxReal, if_neg hcond, if_pos ⟨by simp, h⟩]
  refine ⟨hint, hreal, ?_, ?_, ?_, ?_, ?_, ?_,
    fun _ _ _ => rfl, fun _ _ => rfl, fun _ _ _ => rfl, fun _ _ => rfl⟩
  · intro cs narm h1 h2
    constructor <;> rw [minMaxInt, if_pos ⟨h1, h2⟩] <;> simp
  · intro cs narm h1 h2
    constructor <;> rw [minMaxReal, if_pos ⟨h1, h2⟩] <;> simp
  · intro cs h
    rw [sumInt, if_pos ⟨by simp, h⟩]
  · intro cs h
    rw [sumReal, if_pos ⟨by simp, h⟩]
  · intro cs h
    rw [sumInt, if_neg (by simp), validValues_all_null cs h]
    norm_num
  · intro cs h
    rw [sumReal, if_neg (by simp), validValues_all_null cs h]
    norm_num

/-- Witness for C4 on the spec's own examples: `[1, null, 3]` with
`skipNulls = false` gives the NA sentinel for min/max/sum, and all-null
`[null, null]` under `skipNulls = true` gives `+Inf` / `-Inf` / integer 0. -/
theorem claim_C4_witness :
    minMaxInt true [[((true : Bool), (1 : Int)), (false, 0), (true, 3)]] false
        = .naInteger
    ∧ sumInt [[((true : Bool), (1 : Int)), (false, 0), (true, 3)]] false = .naInteger
    ∧ minMaxInt true [[((false : Bool), (0 : Int)), (false, 0)]] true = .posInfScalar
    ∧ minMaxInt false [[((false : Bool), (0 : Int)), (false, 0)]] true = .negInfScalar
    ∧ sumInt [[((false : Bool), (0 : Int)), (false, 0)]] true = .intScalar 0 :=
  ⟨claim_C4.1 true _ (by decide),
   (claim_C4.2.2.2.2.1 _ (by decide)),
   (claim_C4.2.2.1 _ true (Or.inl rfl) (by decide)).1,
   (claim_C4.2.2.1 _ true (Or.inl rfl) (by decide)).2,
   claim_C4.2.2.2.2.2.2.1 _ (by decide)⟩

/-- **C5 (amended)**: for the int32 variant the sum is computed exactly in a
wider (`Int64`) accumulator and returned as an R integer exactly when the
exact sum lies in `(INT32_MIN, INT32_MAX]` — R's integer range, which excludes
`INT32_MIN` because that bit pattern is the NA sentinel; any sum outside that
half-open range (including one equal to `INT32_MIN`, and any sum exceeding the
32-bit signed range) is returned as a floating-point value equal to the exact
sum, never a wrapped or truncated integer. -/
theorem claim_C5 (cs : List (Chunk Int)) (narm : Bool)
    (h : narm = true ∨ nullCount cs = 0) :
    (sumInt cs narm = .intScalar ((validValues cs).sum) ↔
      -2147483648 < (validValues cs).sum ∧ (validValues cs).sum ≤ 2147483647)
    ∧ ((validValues cs).sum ≤ -2147483648 ∨ 2147483647 < (validValues cs).sum →
        sumInt cs narm = .realScalar ((validValues cs).sum)) := by
  have hna : ¬(¬narm = true ∧ 0 < nullCount cs) := by
    rcases h with h | h
    · simp [h]
    · simp [h]
  constructor
  · rw [sumInt, if_neg hna]
    by_cases hr : (validValues cs).sum ≤ -2147483648 ∨ 2147483647 < (validValues cs).sum
    · rw [if_pos hr]
      constructor
      · intro he ; exact absurd he (by simp)
      · intro hin ; omega
    · rw [if_neg hr]
      constructor
      · intro _ ; omega
      · intro _ ; rfl
  · intro hr
    rw [sumInt, if_neg hna, if_pos hr]

/-- Witness for C5: the sum `2147483647 + 1` exceeds `INT32_MAX`, so it comes
back as a floating-point scalar equal to the exact sum. -/
theorem claim_C5_witness :
    sumInt [[((true : Bool), (2147483647 : Int)), (true, 1)]] true
      = .realScalar ((validValues [[((true : Bool), (2147483647 : Int)), (true, 1)]]).sum) :=
  (claim_C5 [[((true : Bool), (2147483647 : Int)), (true, 1)]] true (Or.inl rfl)).2
    (by decide)

/-- Counterexample to C5 as stated: the exact sum `-2147483648` is
representable in the element type's (int32) range, yet `Sum` returns it as a
floating-point scalar, not an integer — the code excludes `INT32_MIN` because
R reserves that bit pattern for `NA_integer_`. -/
theorem claim_C5_counterexample :
    sumInt [[((true : Bool), (-2147483647 : Int)), (true, -1)]] true
        = .realScalar (-2147483648)
    ∧ -(2 ^ 31) ≤ (-2147483648 : Int) ∧ (-2147483648 : Int) ≤ 2 ^ 31 - 1
    ∧ sumInt [[((true : Bool), (-2147483647 : Int)), (true, -1)]] true
        ≠ .intScalar (-2147483648) := by
  refine ⟨by decide, by decide, by decide, by decide⟩

theorem flatOut_const (g : Cell α → β) (p q : Nat) (cs : List (Chunk α)) :
    flatOut (fun _ cell => g cell) p cs = flatOut (fun _ cell => g cell) q cs := by
  induction cs generalizing p q with
  | nil => rfl
  | cons c cs ih => rw [flatOut, flatOut, ih (p + 1) (q + 1)]

theorem convert1_eq (strip flag : Bool) (cell : Cell (List Char)) :
    convert1 strip flag cell =
      if cell.1 = true ∧ nulChar ∈ cell.2 ∧ strip = false
      then .error (nulErrorMessage cell.2)
      else .ok (convValue strip cell,
        if cell.1 = true ∧ nulChar ∈ cell.2 ∧ strip = true then true else flag) := by
  unfold convert1 convValue
  by_cases h1 : cell.1 = false
  · simp [h1]
  · by_cases h2 : nulChar ∈ cell.2
    · cases strip with
      | true => simp [h1, h2]
      | false => simp [h1, h2]
    · simp [h1, h2]

theorem convert1_ok_val (strip flag : Bool) (cell : Cell (List Char))
    (vf : RStr × Bool) (h : convert1 strip flag cell = .ok vf) :
    vf.1 = convValue strip cell := by
  rw [convert1_eq] at h
  split at h
  · exact absurd h (by simp)
  · injection h with h' ; rw [← h']

theorem convert1_ok_flag (strip flag : Bool) (cell : Cell (List Char))
    (vf : RStr × Bool) (h : convert1 strip flag cell = .ok vf) :
    vf.2 = if cell.1 = true ∧ nulChar ∈ cell.2 ∧ strip = true then true else flag := by
  rw [convert1_eq] at h
  split at h
  · exact absurd h (by simp)
  · injection h with h' ; rw [← h']

theorem convert1_ok_any (strip flag flag' : Bool) (cell : Cell (List Char))
    (vf : RStr × Bool) (h : convert1 strip flag cell = .ok vf) :
    convert1 strip flag' cell = .ok (convValue strip cell,
      if cell.1 = true ∧ nulChar ∈ cell.2 ∧ strip = true then true else flag') := by
  rw [convert1_eq] at h ⊢
  split at h
  · exact absurd h (by simp)
  · rename_i hcond
    rw [if_neg hcond]

theorem convertChunk_ok_val (strip : Bool) (c : Chunk (List Char)) :
    ∀ (flag : Bool) (vsf : List RStr × Bool), convertChunk strip flag c = .ok vsf →
      vsf.1 = c.map (convValue strip) := by
  induction c with
  | nil =>
    intro flag vsf h
    rw [convertChunk] at h
    injection h with h'
    rw [← h']
    rfl
  | cons cell rest ih =>
    intro flag vsf h
    rw [convertChunk] at h
    split at h
    · exact absurd h (by simp)
    · rename_i vf h1
      split at h
      · exact absurd h (by simp)
      · rename_i vsf2 h2
        injection h with h'
        rw [← h', List.map_cons, ← ih vf.2 vsf2 h2,
          convert1_ok_val strip flag cell vf h1]

theorem convertChunk_ok_mem (strip : Bool) (c : Chunk (List Char)) :
    ∀ (flag : Bool) (vsf : List RStr × Bool), convertChunk strip flag c = .ok vsf →
      ∀ cell ∈ c, ∀ flag' : Bool, ∃ f',
        convert1 strip flag' cell = .ok (convValue strip cell, f') := by
  induction c with
  | nil =>
    intro flag vsf _ cell hmem
    exact absurd hmem (by simp)
  | cons cell0 rest ih =>
    intro flag vsf h cell hmem flag'
    rw [convertChunk] at h
    split at h
    · exact absurd h (by simp)
    · rename_i vf h1
      split at h
      · exact absurd h (by simp)
      · rename_i vsf2 h2
        rcases List.mem_cons.mp hmem with he | hr
        · subst he
          exact ⟨_, convert1_ok_any strip flag flag' cell vf h1⟩
        · exact ih vf.2 vsf2 h2 cell hr flag'

theorem convertChunk_ok_flag (strip : Bool) (c : Chunk (List Char)) :
    ∀ (flag : Bool) (vsf : List RStr × Bool), convertChunk strip flag c = .ok vsf →
      (vsf.2 = true ↔
        flag = true ∨ ∃ cell ∈ c, cell.1 = true ∧ nulChar ∈ cell.2 ∧ strip = true) := by
  induction c with
  | nil =>
    intro flag vsf h
    rw [convertChunk] at h
    injection h with h'
    rw [← h']
    simp
  | cons cell0 rest ih =>
    intro flag vsf h
    rw [convertChunk] at h
    split at h
    · exact absurd h (by simp)
    · rename_i vf h1
      split at h
      · exact absurd h (by simp)
      · rename_i vsf2 h2
        injection h with h'
        have hf := convert1_ok_flag strip flag cell0 vf h1
        have hr := ih vf.2 vsf2 h2
        rw [← h']
        simp only [List.mem_cons]
        constructor
        · intro ht
          rcases hr.mp ht with hv | ⟨cell, hc, hcc⟩
          · rw [hf] at hv
            by_cases hcond : cell0.1 = true ∧ nulChar ∈ cell0.2 ∧ strip = true
            · exact Or.inr ⟨cell0, Or.inl rfl, hcond⟩
            · rw [if_neg hcond] at hv
              exact Or.inl hv
          · exact Or.inr ⟨cell, Or.inr hc, hcc⟩
        · intro hd
          apply hr.mpr
          rcases hd with hv | ⟨cell, hc | hc, hcc⟩
          · rw [hf]
            by_cases hcond : cell0.1 = true ∧ nulChar ∈ cell0.2 ∧ strip = true
            · exact Or.inl (by rw [if_pos hcond])
            · exact Or.inl (by rw [if_neg hcond] ; exact hv)
          · subst hc
            exact Or.inl (by rw [hf, if_pos hcc])
          · exact Or.inr ⟨cell, hc, hcc⟩

theorem convertAll_ok_val (strip : Bool) (cs : List (Chunk (List Char))) :
    ∀ (flag : Bool) (vsf : List RStr × Bool), convertAll strip flag cs = .ok vsf →
      vsf.1 = flatOut (fun _ cell => convValue strip cell) 0 cs := by
  induction cs with
  | nil =>
    intro flag vsf h
    rw [convertAll] at h
    injection h with h'
    rw [← h']
    rfl
  | cons c cs ih =>
    intro flag vsf h
    rw [convertAll] at h
    split at h
    · exact absurd h (by simp)
    · rename_i vf h1
      split at h
      · exact absurd h (by simp)
      · rename_i vsf2 h2
        injection h with h'
        rw [← h', flatOut, ← convertChunk_ok_val strip c flag vf h1,
          ← flatOut_const (convValue strip) 0 1 cs, ← ih vf.2 vsf2 h2]

theorem convertAll_ok_mem (strip : Bool) (cs : List (Chunk (List Char))) :
    ∀ (flag : Bool) (vsf : List RStr × Bool), convertAll strip flag cs = .ok vsf →
      ∀ c ∈ cs, ∀ cell ∈ c, ∀ flag' : Bool, ∃ f',
        convert1 strip flag' cell = .ok (convValue strip cell, f') := by
  induction cs with
  | nil =>
    intro flag vsf _ c hmem
    exact absurd hmem (by simp)
  | cons c0 cs ih =>
    intro flag vsf h c hmem cell hcell flag'
    rw [convertAll] at h
    split at h
    · exact absurd h (by simp)
    · rename_i vf h1
      split at h
      · exact absurd h (by simp)
      · rename_i vsf2 h2
        rcases List.mem_cons.mp hmem with he | hr
        · subst he
          exact convertChunk_ok_mem strip c flag vf h1 cell hcell flag'
        · exact ih vf.2 vsf2 h2 c hr cell hcell flag'

theorem convertAll_ok_flag (strip : Bool) (cs : List (Chunk (List Char))) :
    ∀ (flag : Bool) (vsf : List RStr × Bool), convertAll strip flag cs = .ok vsf →
      (vsf.2 = true ↔ flag = true ∨
        ∃ c ∈ cs, ∃ cell ∈ c, cell.1 = true ∧ nulChar ∈ cell.2 ∧ strip = true) := by
  induction cs with
  | nil =>
    intro flag vsf h
    rw [convertAll] at h
    injection h with h'
    rw [← h']
    simp
  | cons c0 cs ih =>
    intro flag vsf h
    rw [convertAll] at h
    split at h
    · exact absurd h (by simp)
    · rename_i vf h1
      split at h
      · exact absurd h (by simp)
      · rename_i vsf2 h2
        injection h with h'
        have hf := convertChunk_ok_flag strip c0 flag vf h1
        have hr := ih vf.2 vsf2 h2
        rw [← h']
        simp only [List.mem_cons]
        constructor
        · intro ht
          rcases hr.mp ht with hv | ⟨c, hc, hcc⟩
          · rcases hf.mp hv with hv2 | ⟨cell, hcell, hcc⟩
            · exact Or.inl hv2
            · exact Or.inr ⟨c0, Or.inl rfl, cell, hcell, hcc⟩
          · exact Or.inr ⟨c, Or.inr hc, hcc⟩
        · intro hd
          apply hr.mpr
          rcases hd with hv | ⟨c, hc | hc, cell, hcell, hcc⟩
          · exact Or.inl (hf.mpr (Or.inl hv))
          · subst hc
            exact Or.inl (hf.mpr (Or.inr ⟨cell, hcell, hcc⟩))
          · exact Or.inr ⟨c, hc, cell, hcell, hcc⟩

theorem convertAll_ok_length (strip : Bool) (cs : List (Chunk (List Char)))
    (flag : Bool) (vsf : List RStr × Bool) (h : convertAll strip flag cs = .ok vsf) :
    vsf.1.length = chunkedLength cs := by
  rw [convertAll_ok_val strip cs flag vsf h, length_flatOut]

/-- **C1**: for every variant and every in-range index, the value the
element accessor returns before materialization equals element `i` of the
representation `Materialize` builds. -/
theorem claim_C1 :
    (∀ (α : Type) (na : α) (s : PrimState α) (i : Nat),
        s.materialized = none → i < chunkedLength s.source →
        ∃ v, pElt na s.source i = some v ∧ ((pMaterialize na s).1).get? i = some v)
    ∧ (∀ (s : FactorState) (i : Nat),
        s.materialized = none → i < chunkedLength s.source →
        ∃ v, fElt s i = some v ∧ ((fMaterialize s).1).get? i = some v)
    ∧ (∀ (strip : Bool) (s : StrState) (i : Nat) (vals : List RStr) (w : Nat)
          (s' : StrState),
        s.materialized = none → i < chunkedLength s.source →
        strMaterialize strip s = (.ok vals, w, s') →
        ∃ v, (strElt strip s i).1 = .ok v ∧ vals.get? i = some v) := by
  refine ⟨?_, ?_, ?_⟩
  · intro α na s i hm hi
    obtain ⟨pc, hpc⟩ := resolve_isSome s.source i hi
    refine ⟨primCell na pc.1 pc.2, ?_, ?_⟩
    · rw [pElt, eltVia, hpc, Option.map_some']
    · rw [pMaterialize, hm]
      rw [regionOut_full, get?_flatOut_zero, eltVia, hpc, Option.map_some']
  · intro s i hm hi
    obtain ⟨pc, hpc⟩ := resolve_isSome s.source i hi
    refine ⟨factorCell s.tables pc.1 pc.2, ?_, ?_⟩
    · rw [fElt, hm, eltVia, hpc, Option.map_some']
    · rw [fMaterialize, hm]
      have hpos : ¬ chunkedLength s.source ≤ 0 := by omega
      rw [fGetRegion, hm]
      simp only [if_neg hpos]
      rw [regionOut_full, get?_flatOut_zero, eltVia, hpc, Option.map_some']
  · intro strip s i vals w s' hm hi hmat
    rw [strMaterialize, hm] at hmat
    cases hc : convertAll strip false s.source with
    | error e =>
      rw [hc] at hmat
      exact absurd hmat (by simp)
    | ok vf =>
      rw [hc] at hmat
      injection hmat with h1 h2
      injection h1 with h1
      obtain ⟨pc, hpc⟩ := resolve_isSome s.source i hi
      obtain ⟨c, hcp, hcmem⟩ := resolve_ordinal s.source i pc.1 pc.2 (by rw [hpc])
      obtain ⟨f', hok⟩ := convertAll_ok_mem strip s.source false vf hc
        c (List.get?_mem hcp) pc.2 hcmem false
      refine ⟨convValue strip pc.2, ?_, ?_⟩
      · simp only [strElt, hm, hpc, hok]
      · rw [← h1, convertAll_ok_val strip s.source false vf hc,
          get?_flatOut_zero, eltVia, hpc, Option.map_some']

/-- Witness for C1: a one-chunk integer vector with a null at position 1. -/
theorem claim_C1_witness :
    ∃ v, pElt (-2147483648 : Int) [[(true, 5), (false, 0)]] 1 = some v
      ∧ ((pMaterialize (-2147483648 : Int)
            ⟨[[(true, 5), (false, 0)]], none⟩).1).get? 1 = some v :=
  claim_C1.1 Int (-2147483648) ⟨[[(true, 5), (false, 0)]], none⟩ 1 rfl (by decide)

/-- **C3**: `Get_region` on the primitive and the factor variant returns
exactly `min(n, length - start)` elements (`0` when `start ≥ length`), and
element `k` of the written buffer equals the element accessor's value at
global index `start + k` — for the factor variant this includes the transpose
table of the chunk covering each copied position, which is what `fElt`
applies.  The hypothesis restricts the cache slot to its reachable contents:
absent, or the full materialized representation. -/
theorem claim_C3 :
    (∀ (α : Type) (na : α) (s : PrimState α) (start n : Nat),
        (s.materialized = none
          ∨ s.materialized = some (flatOut (primCell na) 0 s.source)) →
        (pGetRegion na s start n).length = min n (chunkedLength s.source - start)
        ∧ ∀ k, k < min n (chunkedLength s.source - start) →
            (pGetRegion na s start n).get? k = pElt na s.source (start + k))
    ∧ (∀ (s : FactorState) (start n : Nat),
        (s.materialized = none
          ∨ s.materialized = some (flatOut (factorCell s.tables) 0 s.source)) →
        (fGetRegion s start n).length = min n (chunkedLength s.source - start)
        ∧ ∀ k, k < min n (chunkedLength s.source - start) →
            (fGetRegion s start n).get? k = fElt s (start + k)) := by
  constructor
  · intro α na s start n hwf
    rcases hwf with hm | hm
    · rw [pGetRegion, hm]
      refine ⟨length_regionOut _ _ _ _, ?_⟩
      intro k hk
      rw [get?_regionOut _ _ _ _ _ (by omega), pElt]
    · rw [pGetRegion, hm]
      constructor
      · rw [List.length_take, List.length_drop, length_flatOut]
      · intro k hk
        rw [List.get?_take (by omega), List.get?_drop, get?_flatOut_zero, pElt]
  · intro s start n hwf
    rcases hwf with hm | hm
    · rw [fGetRegion, hm]
      by_cases hs : chunkedLength s.source ≤ start
      · rw [if_pos hs]
        refine ⟨by simp ; omega, ?_⟩
        intro k hk
        omega
      · rw [if_neg hs]
        refine ⟨length_regionOut _ _ _ _, ?_⟩
        intro k hk
        rw [get?_regionOut _ _ _ _ _ (by omega), fElt, hm]
    · rw [fGetRegion, hm]
      constructor
      · rw [List.length_take, List.length_drop, length_flatOut]
      · intro k hk
        simp only [fElt, hm]
        rw [List.get?_take (by omega), List.get?_drop, get?_flatOut_zero]

/-- Witness for C3: region `[1, 1+5)` of a two-chunk vector of length 3 copies
`min(5, 3-1) = 2` elements and position 0 of the buffer equals element `1+0`. -/
theorem claim_C3_witness :
    (pGetRegion (-2147483648 : Int)
        ⟨[[(true, 10), (false, 0)], [(true, 30)]], none⟩ 1 5).length
      = min 5 (chunkedLength [[((true : Bool), (10 : Int)), (false, 0)], [(true, 30)]] - 1)
    ∧ (pGetRegion (-2147483648 : Int)
        ⟨[[(true, 10), (false, 0)], [(true, 30)]], none⟩ 1 5).get? 0
      = pElt (-2147483648 : Int) [[(true, 10), (false, 0)], [(true, 30)]] (1 + 0) :=
  ⟨(claim_C3.1 Int (-2147483648)
      ⟨[[(true, 10), (false, 0)], [(true, 30)]], none⟩ 1 5 (Or.inl rfl)).1,
   (claim_C3.1 Int (-2147483648)
      ⟨[[(true, 10), (false, 0)], [(true, 30)]], none⟩ 1 5 (Or.inl rfl)).2 0 (by decide)⟩

theorem stripNuls_no_nul (v : List Char) : nulChar ∉ stripNuls v := by
  induction v with
  | nil => simp [stripNuls]
  | cons c rest ih =>
    rw [stripNuls]
    by_cases hc : c = nulChar
    · rw [if_pos hc] ; exact ih
    · rw [if_neg hc]
      intro hmem
      rcases List.mem_cons.mp hmem with he | hr
      · exact hc he.symm
      · exact ih hr

/-- **C8**: converting a string element containing an embedded nul byte fails
with the descriptive `Error` message — which displays the offending string
with nuls escaped and names the `arrow.skip_nul` option — when stripping is
disabled; with stripping enabled the nuls are removed, conversion succeeds,
the altered-value flag is raised, and a materialization pass emits exactly one
warning iff some element was stripped, as does a single-element access that
stripped. -/
theorem claim_C8 :
    (∀ (flag : Bool) (v : List Char), nulChar ∈ v →
        convert1 false flag (true, v) = .error (nulErrorMessage v))
    ∧ (∀ v : List Char, ∃ pre suf,
        nulErrorMessage v = pre ++ v.flatMap escapeNul ++ suf)
    ∧ (∀ v : List Char, ∃ pre suf,
        nulErrorMessage v = pre ++ ("arrow.skip_nul").toList ++ suf)
    ∧ (∀ (flag : Bool) (v : List Char), nulChar ∈ v →
        convert1 true flag (true, v) = .ok (some (stripNuls v), true)
        ∧ nulChar ∉ stripNuls v)
    ∧ (∀ (s : StrState) (vals : List RStr) (flag : Bool),
        s.materialized = none → convertAll true false s.source = .ok (vals, flag) →
        ((strMaterialize true s).2.1 = 1 ↔
          ∃ c ∈ s.source, ∃ cell ∈ c, cell.1 = true ∧ nulChar ∈ cell.2))
    ∧ (∀ (s : StrState) (i p : Nat) (cell : Cell (List Char)),
        s.materialized = none → resolve s.source i = some (p, cell) →
        cell.1 = true → nulChar ∈ cell.2 →
        (strElt true s i).1 = .ok (some (stripNuls cell.2))
        ∧ (strElt true s i).2.1 = 1) := by
  refine ⟨?_, ?_, ?_, ?_, ?_, ?_⟩
  · intro flag v h
    rw [convert1_eq, if_pos ⟨rfl, h, rfl⟩]
  · intro v
    refine ⟨("embedded nul in string: ").toList ++ [quoteChar],
      [quoteChar]
        ++ ("; to strip nuls when converting from Arrow to R, set options(arrow.skip_nul = TRUE)").toList,
      ?_⟩
    simp [nulErrorMessage, List.append_assoc]
  · intro v
    refine ⟨("embedded nul in string: ").toList ++ [quoteChar]
        ++ v.flatMap escapeNul ++ [quoteChar]
        ++ ("; to strip nuls when converting from Arrow to R, set options(").toList,
      (" = TRUE)").toList, ?_⟩
    have hsuffix :
        ("; to strip nuls when converting from Arrow to R, set options(arrow.skip_nul = TRUE)").toList
          = ("; to strip nuls when converting from Arrow to R, set options(").toList
            ++ ("arrow.skip_nul").toList ++ (" = TRUE)").toList := by rfl
    rw [nulErrorMessage, hsuffix]
    simp [List.append_assoc]
  · intro flag v h
    refine ⟨?_, stripNuls_no_nul v⟩
    rw [convert1_eq, if_neg (by rintro ⟨_, _, hf⟩ ; exact absurd hf (by simp))]
    have hval : convValue true (true, v) = some (stripNuls v) := by
      rw [convValue, if_neg (by simp), if_pos h, if_pos rfl]
    rw [hval, if_pos ⟨rfl, h, rfl⟩]
  · intro s vals flag hm hca
    have hflag := convertAll_ok_flag true s.source false (vals, flag) hca
    simp only [Bool.false_eq_true, false_or, and_true] at hflag
    simp only [strMaterialize, hm, hca]
    constructor
    · intro h1
      apply hflag.mp
      by_cases hf : flag = true
      · exact hf
      · rw [if_neg hf] at h1 ; exact absurd h1 (by simp)
    · intro hex
      rw [if_pos (hflag.mpr hex)]
  · intro s i p cell hm hres h1 h2
    have hok : convert1 true false cell
        = .ok (convValue true cell, true) := by
      rw [convert1_eq, if_neg (by rintro ⟨_, _, hf⟩ ; exact absurd hf (by simp)),
        if_pos ⟨h1, h2, rfl⟩]
    have hval : convValue true cell = some (stripNuls cell.2) := by
      rw [convValue, if_neg (by simp [h1]), if_pos h2, if_pos rfl]
    constructor
    · simp only [strElt, hm, hres, hok, hval]
    · simp only [strElt, hm, hres, hok]
      simp

/-- Witness for C8 on the string `a\0b`: strip-disabled conversion errors with
the descriptive message, strip-enabled conversion succeeds with the flag set,
and materializing a vector holding it emits exactly one warning. -/
theorem claim_C8_witness :
    convert1 false false (true, ['a', nulChar, 'b'])
        = .error (nulErrorMessage ['a', nulChar, 'b'])
    ∧ convert1 true false (true, ['a', nulChar, 'b'])
        = .ok (some (stripNuls ['a', nulChar, 'b']), true)
    ∧ (strMaterialize true ⟨[[(true, ['a', nulChar, 'b'])]], none⟩).2.1 = 1 :=
  ⟨claim_C8.1 false ['a', nulChar, 'b'] (by decide),
   (claim_C8.2.2.2.1 false ['a', nulChar, 'b'] (by decide)).1,
   (claim_C8.2.2.2.2.1 ⟨[[(true, ['a', nulChar, 'b'])]], none⟩
      [some ['a', 'b']] true rfl rfl).mpr (by decide)⟩

/-- **C9**: string materialization is atomic: a conversion failure leaves the
cache slot unset and the state unchanged, so a retry starts from scratch; a
successful materialization populates the cache fully (one entry per source
element); and a single-element read never writes to the state at all. -/
theorem claim_C9 :
    (∀ (strip : Bool) (s : StrState) (e : List Char),
        (strMaterialize strip s).1 = .error e → (strMaterialize strip s).2.2 = s)
    ∧ (∀ (strip : Bool) (s : StrState) (e : List Char),
        (strMaterialize strip s).1 = .error e →
          strMaterialize strip ((strMaterialize strip s).2.2) = strMaterialize strip s)
    ∧ (∀ (strip : Bool) (s : StrState) (vals : List RStr),
        s.materialized = none → (strMaterialize strip s).1 = .ok vals →
        ((strMaterialize strip s).2.2).materialized = some vals
        ∧ vals.length = chunkedLength s.source)
    ∧ (∀ (strip : Bool) (s : StrState) (i : Nat), (strElt strip s i).2.2 = s) := by
  have h1 : ∀ (strip : Bool) (s : StrState) (e : List Char),
      (strMaterialize strip s).1 = .error e → (strMaterialize strip s).2.2 = s := by
    intro strip s e h
    cases hm : s.materialized with
    | some r =>
      rw [strMaterialize, hm] at h
      exact absurd h (by simp)
    | none =>
      cases hc : convertAll strip false s.source with
      | error e0 => simp only [strMaterialize, hm, hc]
      | ok vf =>
        rw [strMaterialize, hm, hc] at h
        exact absurd h (by simp)
  refine ⟨h1, ?_, ?_, ?_⟩
  · intro strip s e h
    rw [h1 strip s e h]
  · intro strip s vals hm h
    rw [strMaterialize, hm] at h ⊢
    cases hc : convertAll strip false s.source with
    | error e0 =>
      rw [hc] at h
      exact absurd h (by simp)
    | ok vf =>
      rw [hc] at h
      injection h with h'
      subst h'
      exact ⟨rfl, convertAll_ok_length strip s.source false vf hc⟩
  · intro strip s i
    cases hm : s.materialized with
    | some r => simp only [strElt, hm]
    | none =>
      cases hres : resolve s.source i with
      | none => simp only [strElt, hm, hres]
      | some pc =>
        cases hcv : convert1 strip false pc.2 with
        | error e => simp only [strElt, hm, hres, hcv]
        | ok vf => simp only [strElt, hm, hres, hcv]

/-- Witness for C9: materializing `["a\0"]` with stripping disabled fails and
leaves the vector unmaterialized. -/
theorem claim_C9_witness :
    (strMaterialize false ⟨[[(true, ['a', nulChar])]], none⟩).2.2
      = ⟨[[(true, ['a', nulChar])]], none⟩ :=
  claim_C9.1 false ⟨[[(true, ['a', nulChar])]], none⟩
    (nulErrorMessage ['a', nulChar]) rfl

theorem get?_of_longer (u big : List γ) (w : List γ) (hw : big = u ++ w) (j : Nat)
    (v : γ) (h : u.get? j = some v) : big.get? j = some v := by
  subst hw
  rw [List.get?_append (List.get?_eq_some.mp h).1]
  exact h

theorem unifyOne_grows (d : List String) :
    ∀ u : List String, ∃ w, (unifyOne u d).1 = u ++ w := by
  induction d with
  | nil => intro u ; exact ⟨[], by simp [unifyOne]⟩
  | cons s d ih =>
    intro u
    by_cases hs : s ∈ u
    · obtain ⟨w, hw⟩ := ih u
      refine ⟨w, ?_⟩
      rw [unifyOne, if_pos hs]
      exact hw
    · obtain ⟨w, hw⟩ := ih (u ++ [s])
      refine ⟨[s] ++ w, ?_⟩
      rw [unifyOne, if_neg hs]
      show (unifyOne (u ++ [s]) d).1 = u ++ ([s] ++ w)
      rw [hw, List.append_assoc]

theorem unifyOne_nodup (d : List String) :
    ∀ u : List String, u.Nodup → (unifyOne u d).1.Nodup := by
  induction d with
  | nil => intro u hu ; simpa [unifyOne] using hu
  | cons s d ih =>
    intro u hu
    by_cases hs : s ∈ u
    · rw [unifyOne, if_pos hs]
      exact ih u hu
    · rw [unifyOne, if_neg hs]
      exact ih (u ++ [s]) (by simp [List.nodup_append, hu, hs])

theorem unifyOne_spec (d : List String) :
    ∀ (u : List String), u.Nodup → ∀ (k : Nat) (v : String), d.get? k = some v →
      ∃ j, (unifyOne u d).2.get? k = some j ∧ (unifyOne u d).1.get? j = some v := by
  induction d with
  | nil =>
    intro u _ k v hk
    exact absurd hk (by simp)
  | cons s d ih =>
    intro u hu k v hk
    by_cases hs : s ∈ u
    · rw [unifyOne, if_pos hs]
      cases k with
      | zero =>
        injection hk with hv
        obtain ⟨w, hw⟩ := unifyOne_grows d u
        refine ⟨u.indexOf s, rfl, ?_⟩
        show (unifyOne u d).1.get? (u.indexOf s) = some v
        rw [← hv]
        exact get?_of_longer u _ w hw _ s (List.indexOf_get? hs)
      | succ k' =>
        obtain ⟨j, hj1, hj2⟩ := ih u hu k' v hk
        exact ⟨j, hj1, hj2⟩
    · rw [unifyOne, if_neg hs]
      have hu' : (u ++ [s]).Nodup := by simp [List.nodup_append, hu, hs]
      cases k with
      | zero =>
        injection hk with hv
        obtain ⟨w, hw⟩ := unifyOne_grows d (u ++ [s])
        refine ⟨u.length, rfl, ?_⟩
        show (unifyOne (u ++ [s]) d).1.get? u.length = some v
        rw [← hv]
        exact get?_of_longer (u ++ [s]) _ w hw _ s (List.get?_concat_length u s)
      | succ k' =>
        obtain ⟨j, hj1, hj2⟩ := ih (u ++ [s]) hu' k' v hk
        exact ⟨j, hj1, hj2⟩

theorem unifyAll_grows (ds : List (List String)) :
    ∀ u : List String, ∃ w, (unifyAll u ds).1 = u ++ w := by
  induction ds with
  | nil => intro u ; exact ⟨[], by simp [unifyAll]⟩
  | cons d ds ih =>
    intro u
    obtain ⟨w1, hw1⟩ := unifyOne_grows d u
    obtain ⟨w2, hw2⟩ := ih (unifyOne u d).1
    refine ⟨w1 ++ w2, ?_⟩
    show (unifyAll (unifyOne u d).1 ds).1 = u ++ (w1 ++ w2)
    rw [hw2, hw1, List.append_assoc]

theorem unifyAll_nodup (ds : List (List String)) :
    ∀ u : List String, u.Nodup → (unifyAll u ds).1.Nodup := by
  induction ds with
  | nil => intro u hu ; simpa [unifyAll] using hu
  | cons d ds ih =>
    intro u hu
    exact ih (unifyOne u d).1 (unifyOne_nodup d u hu)

theorem unifyAll_spec (ds : List (List String)) :
    ∀ (u : List String), u.Nodup →
      ∀ (p : Nat) (d0 : List String), ds.get? p = some d0 →
      ∀ (k : Nat) (v : String), d0.get? k = some v →
      ∃ t j, (unifyAll u ds).2.get? p = some t ∧ t.get? k = some j
        ∧ (unifyAll u ds).1.get? j = some v := by
  induction ds with
  | nil =>
    intro u _ p d0 hp
    exact absurd hp (by simp)
  | cons d ds ih =>
    intro u hu p d0 hp k v hk
    cases p with
    | zero =>
      injection hp with hd
      obtain ⟨j, hj1, hj2⟩ := unifyOne_spec d u hu k v (by rw [hd] ; exact hk)
      obtain ⟨w, hw⟩ := unifyAll_grows ds (unifyOne u d).1
      refine ⟨(unifyOne u d).2, j, rfl, hj1, ?_⟩
      show (unifyAll (unifyOne u d).1 ds).1.get? j = some v
      exact get?_of_longer (unifyOne u d).1 _ w hw j v hj2
    | succ p' =>
      obtain ⟨t, j, ht, hj, hv⟩ :=
        ih (unifyOne u d).1 (unifyOne_nodup d u hu) p' d0 hp k v hk
      exact ⟨t, j, ht, hj, hv⟩

theorem needUnification_false_dict (cs : List DictChunk)
    (h : needUnification cs = false) (p : Nat) (c : DictChunk)
    (hc : cs.get? p = some c) :
    c.dict = ((cs.head?).map DictChunk.dict).getD [] := by
  cases cs with
  | nil => exact absurd hc (by simp)
  | cons c0 rest =>
    simp only [List.head?_cons, Option.map_some', Option.getD_some]
    rw [needUnification] at h
    cases p with
    | zero =>
      injection hc with hc
      rw [← hc]
    | succ p' =>
      have hmem : c ∈ rest := List.get?_mem hc
      have := List.any_eq_false.mp h c hmem
      simpa using this

/-- **C6 (amended)**: the factor variant stores transpose tables iff the chunk
dictionaries differ (unification at construction); every present element's
code is the chunk-local index, transposed through the owning chunk's table
when unification ran (identity otherwise), plus one, and that 1-based code
indexes the exposed label set at the element's underlying string; hence two
elements — in the same or different chunks — holding the same underlying
string receive the same code, **provided** the shared dictionary has no
duplicate labels when no unification runs (when unification runs the unifier
collapses duplicates, so no extra condition is needed). -/
theorem claim_C6 (cs : List DictChunk)
    (hnodup : needUnification cs = false →
      (((cs.head?).map DictChunk.dict).getD []).Nodup) :
    (factorMake cs).tables.isSome = needUnification cs
    ∧ (∀ (i : Nat) (str : String), dictValueAt cs i = some str →
        ∃ k, fElt (factorMake cs) i = some ((k + 1 : Nat) : Int)
          ∧ (factorMake cs).levels.get? k = some str)
    ∧ (∀ (i1 i2 : Nat) (str : String),
        dictValueAt cs i1 = some str → dictValueAt cs i2 = some str →
        fElt (factorMake cs) i1 = fElt (factorMake cs) i2) := by
  have hmain : ∀ (i : Nat) (str : String), dictValueAt cs i = some str →
      ∃ k, fElt (factorMake cs) i = some ((k + 1 : Nat) : Int)
        ∧ (factorMake cs).levels.get? k = some str := by
    intro i str hdv
    rw [dictValueAt] at hdv
    cases hres : resolve (cs.map DictChunk.cells) i with
    | none => rw [hres] at hdv ; exact absurd hdv (by simp)
    | some pc =>
      rw [hres] at hdv
      by_cases hv : pc.2.1 = true
      · rw [Option.some_bind, if_pos hv] at hdv
        cases hcp : cs.get? pc.1 with
        | none => rw [hcp] at hdv ; exact absurd hdv (by simp)
        | some c =>
          rw [hcp] at hdv
          simp only [Option.some_bind] at hdv
          cases hneed : needUnification cs with
          | true =>
            have helt : fElt (factorMake cs) i
                = some (factorCell (some (unifyAll [] (cs.map DictChunk.dict)).2)
                    pc.1 pc.2) := by
              simp only [factorMake, hneed, if_pos]
              simp only [fElt, eltVia, hres, Option.map_some']
            obtain ⟨t, j, ht, hj, hlev⟩ :=
              unifyAll_spec (cs.map DictChunk.dict) [] List.nodup_nil pc.1 c.dict
                (by rw [List.get?_map, hcp] ; rfl) pc.2.2 str hdv
            refine ⟨j, ?_, ?_⟩
            · rw [helt, factorCell]
              simp only [hv, if_pos]
              rw [transposeApply, getD_of_get? _ _ _ _ ht, getD_of_get? _ _ _ _ hj]
            · simp only [factorMake, hneed, if_pos]
              exact hlev
          | false =>
            have helt : fElt (factorMake cs) i
                = some (factorCell none pc.1 pc.2) := by
              simp only [factorMake, hneed]
              simp only [Bool.false_eq_true, if_false]
              simp only [fElt, eltVia, hres, Option.map_some']
            refine ⟨pc.2.2, ?_, ?_⟩
            · rw [helt, factorCell]
              simp only [hv, if_pos]
              rfl
            · simp only [factorMake, hneed]
              simp only [Bool.false_eq_true, if_false]
              rw [← needUnification_false_dict cs hneed pc.1 c hcp]
              exact hdv
      · rw [Option.some_bind, if_neg hv] at hdv
        exact absurd hdv (by simp)
  have hlevnodup : (factorMake cs).levels.Nodup := by
    cases hneed : needUnification cs with
    | true =>
      simp only [factorMake, hneed, if_pos]
      exact unifyAll_nodup (cs.map DictChunk.dict) [] List.nodup_nil
    | false =>
      simp only [factorMake, hneed]
      simp only [Bool.false_eq_true, if_false]
      exact hnodup hneed
  refine ⟨?_, hmain, ?_⟩
  · cases hneed : needUnification cs with
    | true =>
      simp only [factorMake, hneed, if_pos]
      rfl
    | false =>
      simp only [factorMake, hneed]
      simp only [Bool.false_eq_true, if_false]
      rfl
  · intro i1 i2 str h1 h2
    obtain ⟨k1, he1, hl1⟩ := hmain i1 str h1
    obtain ⟨k2, he2, hl2⟩ := hmain i2 str h2
    have hk : k1 = k2 :=
      List.get?_inj (List.get?_eq_some.mp hl1).1 hlevnodup (hl1.trans hl2.symm)
    rw [he1, he2, hk]

/-- Witness for C6 on the spec's example: chunks with dictionaries
`["a","b"]` and `["b","a"]` (different orderings) are unified, and the
elements holding `"a"` in each chunk receive the same code. -/
theorem claim_C6_witness :
    fElt (factorMake [⟨[(true, 0)], [("a"), ("b")]⟩, ⟨[(true, 1)], [("b"), ("a")]⟩]) 0
      = fElt (factorMake [⟨[(true, 0)], [("a"), ("b")]⟩, ⟨[(true, 1)], [("b"), ("a")]⟩]) 1 :=
  (claim_C6 [⟨[(true, 0)], [("a"), ("b")]⟩, ⟨[(true, 1)], [("b"), ("a")]⟩]
      (fun hfalse => absurd hfalse (by decide))).2.2 0 1 ("a") rfl rfl

/-- Counterexample to C6 as stated: two chunks with byte-identical
dictionaries `["a","a"]` holding the same string `"a"` — no unification runs
(the dictionaries do not differ), the identity mapping applies, and the two
elements receive different codes `1` and `2`. -/
theorem claim_C6_counterexample :
    dictValueAt [⟨[(true, 0)], [("a"), ("a")]⟩, ⟨[(true, 1)], [("a"), ("a")]⟩] 0
      = dictValueAt [⟨[(true, 0)], [("a"), ("a")]⟩, ⟨[(true, 1)], [("a"), ("a")]⟩] 1
    ∧ fElt (factorMake [⟨[(true, 0)], [("a"), ("a")]⟩, ⟨[(true, 1)], [("a"), ("a")]⟩]) 0
      ≠ fElt (factorMake [⟨[(true, 0)], [("a"), ("a")]⟩, ⟨[(true, 1)], [("a"), ("a")]⟩]) 1 := by
  refine ⟨by decide, by decide⟩

end ArrowAltrep
